import Mathlib

/-!
# Verification of the Wav DCA Tracker metric helpers

Shallow embedding of the portfolio-metric helpers of the repository
(`computePnL`, `computeTotals`, `computeMonthlyHistory`) and proofs of the
specified properties.

Modelling conventions:
* JS numbers are modelled as exact rationals `ℚ` (the algorithms are pure
  arithmetic; the `1e-8` lot-discard epsilon of the source is kept as the
  rational `1 / 10^8`).
* JS objects used as string-keyed maps are modelled as association lists
  (`List (String × _)`) with JS insertion-order semantics: updating an
  existing key keeps its position, a fresh key is appended at the end, and
  `Object.keys` iteration is list order.
* `date` strings are ISO `YYYY-MM-DD`; the source sorts by
  `new Date(a.date) - new Date(b.date)`, which for such strings coincides
  with lexicographic string order, and relies on the engine's stable
  `Array.prototype.sort`.  We model this with a stable insertion sort on
  the date key.
-/

namespace WavDca

/-- A transaction record, as described in the source file's header comment.
The `platform` field is never read by the metric helpers and is omitted. -/
structure Tx where
  date : String
  asset : String
  type : String
  price : ℚ
  quantity : ℚ
deriving Repr, DecidableEq

/-- A purchase lot `{ quantity, price }` as pushed by a BUY in `computePnL`. -/
structure Lot where
  quantity : ℚ
  price : ℚ
deriving Repr, DecidableEq

/-- JS object lookup `m[k]` on an insertion-ordered association list. -/
def lookupA {α : Type} (k : String) : List (String × α) → Option α
  | [] => none
  | (k', v) :: rest => if k' = k then some v else lookupA k rest

/-- JS object assignment `m[k] = v`: update in place if the key exists,
append at the end otherwise. -/
def setA {α : Type} (k : String) (v : α) : List (String × α) → List (String × α)
  | [] => [(k, v)]
  | (k', v') :: rest => if k' = k then (k, v) :: rest else (k', v') :: setA k v rest

/-- Lexicographic order on strings via their character lists.  For ISO
`YYYY-MM-DD` date strings this coincides with the chronological order that
the source's `new Date(a.date) - new Date(b.date)` comparator implements
(and, by `strLt_iff_lt` below, with the standard order on `String`). -/
abbrev strLt (a b : String) : Prop := a.data < b.data

/-- Lexicographic `≤` on strings via their character lists (JS `<=`). -/
abbrev strLe (a b : String) : Prop := a.data ≤ b.data

/-- Stable insertion step for a sort by a string key: the new element goes
after every earlier element whose key is strictly smaller, and before the
first element whose key is greater or equal (preserving input order on
equal keys). -/
def insertK {α : Type} (key : α → String) (x : α) : List α → List α
  | [] => [x]
  | y :: ys => if strLt (key y) (key x) then y :: insertK key x ys else x :: y :: ys

/-- Stable sort by a string key; extensionally equal to the engine's stable
`Array.prototype.sort` with the date comparator of the source. -/
def sortK {α : Type} (key : α → String) : List α → List α
  | [] => []
  | x :: xs => insertK key x (sortK key xs)

/-- `[...transactions].sort((a, b) => new Date(a.date) - new Date(b.date))`. -/
def sortTx (transactions : List Tx) : List Tx := sortK Tx.date transactions

/-- The lot-discard threshold `1e-8` of the source. -/
def eps : ℚ := 1 / 100000000

/-- The SELL inner loop of `computePnL`:
`while (qtyToSell > 0 && lots.length > 0) { ... }` consuming lots FIFO.
In the branch where the head lot keeps a quantity above `eps`, necessarily
`sellQty = qtyToSell` (otherwise the head lot would have been consumed to
exactly 0), so the next loop test `qtyToSell > 0` fails and the loop exits
with the diminished head lot still in place; the embedding returns there
directly. -/
def sellLoop (price : ℚ) : List Lot → ℚ → ℚ → List Lot × ℚ
  | [], _, realised => ([], realised)
  | lot :: rest, qtyToSell, realised =>
    if 0 < qtyToSell then
      let sellQty := min lot.quantity qtyToSell
      let realised' := realised + sellQty * (price - lot.price)
      if lot.quantity - sellQty ≤ eps then
        sellLoop price rest (qtyToSell - sellQty) realised'
      else
        ({ quantity := lot.quantity - sellQty, price := lot.price } :: rest, realised')
    else (lot :: rest, realised)

/-- The mutable state of the replay loop in `computePnL`. -/
structure RState where
  lotsByAsset : List (String × List Lot)
  realisedByAsset : List (String × ℚ)
deriving Repr, DecidableEq

/-- `if (!lotsByAsset[asset]) lotsByAsset[asset] = [];` -/
def ensureLots (m : List (String × List Lot)) (a : String) : List (String × List Lot) :=
  if (lookupA a m).isSome then m else setA a [] m

/-- `if (!realisedByAsset[asset]) realisedByAsset[asset] = 0;`
(The JS test is falsy-based, so a stored `0` is re-assigned `0`, which
leaves the object unchanged; modelling it as insert-if-absent is
extensionally identical.) -/
def ensureRealised (m : List (String × ℚ)) (a : String) : List (String × ℚ) :=
  if (lookupA a m).isSome then m else setA a 0 m

/-- One iteration of the `for (const tx of sorted)` loop of `computePnL`. -/
def processTx (st : RState) (tx : Tx) : RState :=
  let lots0 := ensureLots st.lotsByAsset tx.asset
  let real0 := ensureRealised st.realisedByAsset tx.asset
  if tx.type = "BUY" then
    { lotsByAsset :=
        setA tx.asset (((lookupA tx.asset lots0).getD []) ++ [⟨tx.quantity, tx.price⟩]) lots0,
      realisedByAsset := real0 }
  else if tx.type = "SELL" then
    let res := sellLoop tx.price ((lookupA tx.asset lots0).getD []) tx.quantity
        ((lookupA tx.asset real0).getD 0)
    { lotsByAsset := setA tx.asset res.1 lots0,
      realisedByAsset := setA tx.asset res.2 real0 }
  else
    { lotsByAsset := lots0, realisedByAsset := real0 }

/-- The replay of the (sorted) transaction list against the empty ledger. -/
def replay (sorted : List Tx) : RState :=
  sorted.foldl processTx { lotsByAsset := [], realisedByAsset := [] }

/-- `lots.reduce((sum, lot) => sum + lot.quantity, 0)`. -/
def Qsum (lots : List Lot) : ℚ :=
  lots.foldl (fun sum lot => sum + lot.quantity) 0

/-- `lots.reduce((sum, lot) => sum + lot.quantity * lot.price, 0)`. -/
def ISum (lots : List Lot) : ℚ :=
  lots.foldl (fun sum lot => sum + lot.quantity * lot.price) 0

/-- The per-asset summary record produced by `computePnL`.  `pnlPercent` is
`Option ℚ`, `none` standing for the source's `null`. -/
structure Summary where
  quantity : ℚ
  invested : ℚ
  currentPrice : ℚ
  value : ℚ
  realised : ℚ
  unrealised : ℚ
  pnl : ℚ
  costAvg : ℚ
  pnlPercent : Option ℚ
deriving Repr, DecidableEq

/-- The summary-building body of the second loop of `computePnL`. -/
def mkSummary (asset : String) (prices : List (String × ℚ)) (lots : List Lot)
    (realised : ℚ) : Summary :=
  let totalQty := Qsum lots
  let invested := ISum lots
  let currentPrice := (lookupA asset prices).getD 0
  let value := currentPrice * totalQty
  let unrealised := value - invested
  let pnl := realised + unrealised
  { quantity := totalQty
    invested := invested
    currentPrice := currentPrice
    value := value
    realised := realised
    unrealised := unrealised
    pnl := pnl
    costAvg := if 0 < totalQty then invested / totalQty else 0
    pnlPercent := if 0 < invested then some (pnl / invested * 100) else none }

/-- `computePnL(transactions, prices)`: sort chronologically, replay FIFO,
then build one summary per key of `lotsByAsset` in insertion order. -/
def computePnL (transactions : List Tx) (prices : List (String × ℚ)) :
    List (String × Summary) :=
  let st := replay (sortTx transactions)
  st.lotsByAsset.map (fun e =>
    (e.1, mkSummary e.1 prices e.2 ((lookupA e.1 st.realisedByAsset).getD 0)))

/-- Portfolio totals returned by `computeTotals`. -/
structure Totals where
  invested : ℚ
  value : ℚ
  realised : ℚ
  unrealised : ℚ
  pnl : ℚ
deriving Repr, DecidableEq

/-- `computeTotals(summary)`: additive aggregation over all per-asset
summaries, in key order. -/
def computeTotals (summary : List (String × Summary)) : Totals :=
  summary.foldl
    (fun t e =>
      { invested := t.invested + e.2.invested
        value := t.value + e.2.value
        realised := t.realised + e.2.realised
        unrealised := t.unrealised + e.2.unrealised
        pnl := t.pnl + e.2.pnl })
    { invested := 0, value := 0, realised := 0, unrealised := 0, pnl := 0 }

/-- One row of `computeMonthlyHistory`; `ret` models the source's `return`
field (a Lean keyword). -/
structure HistoryEntry where
  month : String
  invested : ℚ
  value : ℚ
  realised : ℚ
  unrealised : ℚ
  pnl : ℚ
  ret : ℚ
deriving Repr, DecidableEq

/-- `Array.from(new Set(...))`: deduplication keeping first occurrences. -/
def dedupFirstAux (seen : List String) : List String → List String
  | [] => []
  | x :: xs => if x ∈ seen then dedupFirstAux seen xs else x :: dedupFirstAux (x :: seen) xs

/-- First-occurrence deduplication (JS `Set` insertion semantics). -/
def dedupFirst (l : List String) : List String := dedupFirstAux [] l

/-- The sorted list of distinct `YYYY-MM` month keys of the transactions:
`Array.from(new Set(transactions.map(tx => tx.date.slice(0, 7)))).sort()`. -/
def monthsOf (transactions : List Tx) : List String :=
  sortK id (dedupFirst (transactions.map (fun tx => tx.date.take 7)))

/-- The `for (const month of months)` loop of `computeMonthlyHistory`,
carrying `prevPortfolioValue` and `prevInvested` across iterations. -/
def historyAux (transactions : List Tx) (prices : List (String × ℚ)) :
    List String → ℚ → ℚ → List HistoryEntry
  | [], _, _ => []
  | month :: ms, prevPortfolioValue, prevInvested =>
    let uptoMonth := transactions.filter (fun tx => decide (strLe (tx.date.take 7) month))
    let totals := computeTotals (computePnL uptoMonth prices)
    let portfolioValue := totals.value + totals.realised
    let newContrib := totals.invested - prevInvested
    let periodReturn :=
      if 0 < prevPortfolioValue then
        (portfolioValue - prevPortfolioValue - newContrib) / prevPortfolioValue
      else 0
    { month := month
      invested := totals.invested
      value := totals.value
      realised := totals.realised
      unrealised := totals.unrealised
      pnl := totals.pnl
      ret := periodReturn * 100 }
      :: historyAux transactions prices ms portfolioValue totals.invested

/-- `computeMonthlyHistory(transactions, prices)`. -/
def computeMonthlyHistory (transactions : List Tx) (prices : List (String × ℚ)) :
    List HistoryEntry :=
  historyAux transactions prices (monthsOf transactions) 0 0

/-- Spec-side description of a single sale (the refinement counterpart of
`sellLoop`): the list of lot portions `(consumed quantity, lot acquisition
price)` consumed FIFO — oldest lot first — by a sale, consuming
`min(head.quantity, remaining)` from the head lot while quantity remains
and discarding a head lot whose residue falls to at most `eps`. -/
def fifoConsume : ℚ → List Lot → List (ℚ × ℚ)
  | _, [] => []
  | qtyToSell, lot :: rest =>
    if 0 < qtyToSell then
      let consumed := min lot.quantity qtyToSell
      if lot.quantity - consumed ≤ eps then
        (consumed, lot.price) :: fifoConsume (qtyToSell - consumed) rest
      else
        [(consumed, lot.price)]
    else []

/-- The action of one transaction on the lot queues alone (the
`lotsByAsset` component of `processTx`; realised accumulators do not feed
back into the queues). -/
def stepLots (m : List (String × List Lot)) (tx : Tx) : List (String × List Lot) :=
  let lots0 := ensureLots m tx.asset
  if tx.type = "BUY" then
    setA tx.asset (((lookupA tx.asset lots0).getD []) ++ [⟨tx.quantity, tx.price⟩]) lots0
  else if tx.type = "SELL" then
    setA tx.asset
      (sellLoop tx.price ((lookupA tx.asset lots0).getD []) tx.quantity 0).1 lots0
  else lots0

/-- Spec-side accumulated realized PnL of one asset over a transaction
sequence: the sum, over the SELL events of that asset, of
`consumed × (sell price − lot acquisition price)` across the lot portions
consumed FIFO by each sale from the then-current lot queue. -/
def realisedSpec (a : String) : List Tx → List (String × List Lot) → ℚ
  | [], _ => 0
  | tx :: rest, m =>
    (if tx.asset = a ∧ tx.type = "SELL" then
      ((fifoConsume tx.quantity ((lookupA tx.asset m).getD [])).map
        (fun c => c.1 * (tx.price - c.2))).sum
    else 0) + realisedSpec a rest (stepLots m tx)

/-- Total quantity bought for an asset over a transaction list. -/
def boughtQ (a : String) (transactions : List Tx) : ℚ :=
  ((transactions.filter (fun tx => tx.asset == a && tx.type == "BUY")).map
    Tx.quantity).sum

/-- Total quantity sold for an asset over a transaction list. -/
def soldQ (a : String) (transactions : List Tx) : ℚ :=
  ((transactions.filter (fun tx => tx.asset == a && tx.type == "SELL")).map
    Tx.quantity).sum

/-- Number of SELL transactions of an asset in a transaction list. -/
def sellCount (a : String) (transactions : List Tx) : ℕ :=
  (transactions.filter (fun tx => tx.asset == a && tx.type == "SELL")).length

/-- The relation between two consecutive monthly-history rows: the later
row's `return` field is the period-return formula over the previous row's
portfolio value (`value + realised`) and invested capital, or 0 when the
previous portfolio value was not positive. -/
def retStep (prev cur : HistoryEntry) : Prop :=
  cur.ret =
    (if 0 < prev.value + prev.realised then
      ((cur.value + cur.realised) - (prev.value + prev.realised)
          - (cur.invested - prev.invested)) / (prev.value + prev.realised)
    else 0) * 100

/-! ## Association-list lemmas -/

theorem lookupA_setA_self {α : Type} (k : String) (v : α) :
    ∀ l : List (String × α), lookupA k (setA k v l) = some v
  | [] => by simp [setA, lookupA]
  | (k', v') :: rest => by
    by_cases h : k' = k
    · simp [setA, lookupA, h]
    · simp [setA, lookupA, h, lookupA_setA_self k v rest]

theorem lookupA_setA_ne {α : Type} {k k' : String} (h : k' ≠ k) (v : α) :
    ∀ l : List (String × α), lookupA k (setA k' v l) = lookupA k l
  | [] => by simp [setA, lookupA, h]
  | (k'', v'') :: rest => by
    by_cases h2 : k'' = k'
    · simp [setA, lookupA, h2, h]
    · simp only [setA, if_neg h2, lookupA]
      by_cases h3 : k'' = k
      · simp [h3]
      · simp [h3, lookupA_setA_ne h v rest]

theorem lookupA_map {α β : Type} (f : String → α → β) (a : String) :
    ∀ l : List (String × α),
      lookupA a (l.map (fun e => (e.1, f e.1 e.2))) = (lookupA a l).map (f a)
  | [] => rfl
  | (k, v) :: rest => by
    by_cases h : k = a
    · subst h; simp [lookupA]
    · simp [lookupA, h, lookupA_map f a rest]

/-! ## The stable sort: permutation, sortedness, stability -/

theorem strLt_iff_lt (a b : String) : strLt a b ↔ a < b := by
  rw [String.lt_iff_toList_lt]
  exact Iff.rfl

theorem strLe_iff_le (a b : String) : strLe a b ↔ a ≤ b := by
  have h1 : strLe a b ↔ ¬ strLt b a := (not_lt (a := b.data) (b := a.data)).symm
  rw [h1, strLt_iff_lt]
  exact not_lt

theorem string_data_inj {a b : String} (h : a.data = b.data) : a = b :=
  congrArg String.mk h

theorem insertK_perm {α : Type} (key : α → String) (x : α) :
    ∀ l : List α, (insertK key x l).Perm (x :: l)
  | [] => List.Perm.refl _
  | y :: ys => by
    unfold insertK
    by_cases h : strLt (key y) (key x)
    · rw [if_pos h]
      exact ((insertK_perm key x ys).cons y).trans (List.Perm.swap x y ys)
    · rw [if_neg h]

theorem sortK_perm {α : Type} (key : α → String) :
    ∀ l : List α, (sortK key l).Perm l
  | [] => List.Perm.refl _
  | x :: xs =>
    (insertK_perm key x (sortK key xs)).trans ((sortK_perm key xs).cons x)

theorem insertK_pairwise {α : Type} (key : α → String) (x : α) :
    ∀ l : List α, l.Pairwise (fun a b => strLe (key a) (key b)) →
      (insertK key x l).Pairwise (fun a b => strLe (key a) (key b))
  | [], _ => List.pairwise_singleton _ _
  | y :: ys, hp => by
    rw [List.pairwise_cons] at hp
    unfold insertK
    by_cases h : strLt (key y) (key x)
    · rw [if_pos h]
      rw [List.pairwise_cons]
      refine ⟨fun z hz => ?_, insertK_pairwise key x ys hp.2⟩
      rcases List.mem_cons.1 ((insertK_perm key x ys).mem_iff.1 hz) with rfl | hzy
      · exact le_of_lt h
      · exact hp.1 z hzy
    · rw [if_neg h]
      rw [List.pairwise_cons]
      refine ⟨fun z hz => ?_, List.pairwise_cons.2 hp⟩
      rcases List.mem_cons.1 hz with rfl | hzys
      · exact le_of_not_lt h
      · exact le_trans (le_of_not_lt h) (hp.1 z hzys)

theorem sortK_pairwise {α : Type} (key : α → String) :
    ∀ l : List α, (sortK key l).Pairwise (fun a b => strLe (key a) (key b))
  | [] => List.Pairwise.nil
  | x :: xs => insertK_pairwise key x (sortK key xs) (sortK_pairwise key xs)

theorem insertK_filter {α : Type} (key : α → String) (x : α) (s : String) :
    ∀ l : List α, (insertK key x l).filter (fun a => key a == s) =
      (x :: l).filter (fun a => key a == s)
  | [] => rfl
  | y :: ys => by
    unfold insertK
    by_cases h : strLt (key y) (key x)
    · rw [if_pos h]
      by_cases hx : key x = s
      · have hy : ¬ key y = s := by
          intro hy
          exact absurd h (by rw [show key y = key x from hy.trans hx.symm]; exact lt_irrefl _)
        simp [List.filter_cons, hx, hy, insertK_filter key x s ys]
      · by_cases hy : key y = s <;>
          simp [List.filter_cons, hx, hy, insertK_filter key x s ys]
    · rw [if_neg h]

theorem sortK_filter {α : Type} (key : α → String) (s : String) :
    ∀ l : List α, (sortK key l).filter (fun a => key a == s) =
      l.filter (fun a => key a == s)
  | [] => rfl
  | x :: xs => by
    show (insertK key x (sortK key xs)).filter _ = _
    rw [insertK_filter key x s (sortK key xs)]
    simp only [List.filter_cons]
    rw [sortK_filter key s xs]

/-- A `≤`-pairwise list without duplicates is `<`-pairwise. -/
theorem pairwise_strLt_of_nodup {l : List String}
    (hs : l.Pairwise (fun a b => strLe a b)) (hn : l.Nodup) :
    l.Pairwise (fun a b => strLt a b) := by
  refine (hs.and hn).imp ?_
  rintro a b ⟨hle, hne⟩
  exact lt_of_le_of_ne hle (fun hd => hne (string_data_inj hd))

/-! ## Sums over lots -/

theorem eps_pos : 0 < eps := by norm_num [eps]

theorem foldl_add_map {α : Type} (f : α → ℚ) :
    ∀ (l : List α) (s : ℚ), l.foldl (fun acc x => acc + f x) s = s + (l.map f).sum
  | [], s => by simp
  | x :: xs, s => by
    rw [List.foldl_cons, foldl_add_map f xs (s + f x)]
    simp [add_assoc]

theorem Qsum_eq (lots : List Lot) : Qsum lots = (lots.map Lot.quantity).sum := by
  rw [Qsum, foldl_add_map Lot.quantity lots 0, zero_add]

theorem ISum_eq (lots : List Lot) :
    ISum lots = (lots.map (fun lot => lot.quantity * lot.price)).sum := by
  rw [ISum, foldl_add_map (fun lot => lot.quantity * lot.price) lots 0, zero_add]

theorem Qsum_cons (lot : Lot) (rest : List Lot) :
    Qsum (lot :: rest) = lot.quantity + Qsum rest := by
  simp [Qsum_eq]

theorem Qsum_nonneg {lots : List Lot} (h : ∀ lot ∈ lots, 0 ≤ lot.quantity) :
    0 ≤ Qsum lots := by
  rw [Qsum_eq]
  exact List.sum_nonneg (by simpa using fun lot hmem => h lot hmem)

theorem ISum_nonneg {lots : List Lot}
    (h : ∀ lot ∈ lots, 0 ≤ lot.quantity ∧ 0 ≤ lot.price) : 0 ≤ ISum lots := by
  rw [ISum_eq]
  refine List.sum_nonneg ?_
  intro x hx
  rcases List.mem_map.1 hx with ⟨lot, hmem, rfl⟩
  exact mul_nonneg (h lot hmem).1 (h lot hmem).2

/-! ## The SELL loop -/

theorem sellLoop_not_pos (p : ℚ) {qty : ℚ} (h : ¬ 0 < qty) (r : ℚ) :
    ∀ lots : List Lot, sellLoop p lots qty r = (lots, r)
  | [] => rfl
  | lot :: rest => by simp [sellLoop, h]

theorem sellLoop_fst_realised_indep (p : ℚ) :
    ∀ (lots : List Lot) (qty r r' : ℚ),
      (sellLoop p lots qty r).1 = (sellLoop p lots qty r').1
  | [], _, _, _ => rfl
  | lot :: rest, qty, r, r' => by
    by_cases h0 : 0 < qty
    · by_cases h1 : lot.quantity - min lot.quantity qty ≤ eps
      · simp only [sellLoop, if_pos h0, if_pos h1]
        exact sellLoop_fst_realised_indep p rest _ _ _
      · simp only [sellLoop, if_pos h0, if_neg h1]
    · simp only [sellLoop, if_neg h0]

theorem sellLoop_snd (p : ℚ) :
    ∀ (lots : List Lot) (qty r : ℚ),
      (sellLoop p lots qty r).2 =
        r + ((fifoConsume qty lots).map (fun c => c.1 * (p - c.2))).sum
  | [], qty, r => by simp [sellLoop, fifoConsume]
  | lot :: rest, qty, r => by
    by_cases h0 : 0 < qty
    · by_cases h1 : lot.quantity - min lot.quantity qty ≤ eps
      · simp only [sellLoop, fifoConsume, if_pos h0, if_pos h1]
        rw [sellLoop_snd p rest _ _]
        simp [add_assoc]
      · simp only [sellLoop, fifoConsume, if_pos h0, if_neg h1]
        simp
    · simp [sellLoop, fifoConsume, if_neg h0]

theorem sellLoop_mem (p : ℚ) :
    ∀ (lots : List Lot) (qty r : ℚ) (x : Lot),
      x ∈ (sellLoop p lots qty r).1 →
        x ∈ lots ∨ (eps < x.quantity ∧ ∃ lot ∈ lots, x.price = lot.price)
  | [], _, _, _, hx => absurd hx (by simp [sellLoop])
  | lot :: rest, qty, r, x, hx => by
    by_cases h0 : 0 < qty
    · by_cases h1 : lot.quantity - min lot.quantity qty ≤ eps
      · rw [show sellLoop p (lot :: rest) qty r =
            sellLoop p rest (qty - min lot.quantity qty)
              (r + min lot.quantity qty * (p - lot.price)) by
            simp only [sellLoop, if_pos h0, if_pos h1]] at hx
        rcases sellLoop_mem p rest _ _ x hx with hmem | ⟨hq, lot', hmem, hp⟩
        · exact Or.inl (List.mem_cons_of_mem _ hmem)
        · exact Or.inr ⟨hq, lot', List.mem_cons_of_mem _ hmem, hp⟩
      · rw [show sellLoop p (lot :: rest) qty r =
            ({ quantity := lot.quantity - min lot.quantity qty, price := lot.price }
              :: rest,
              r + min lot.quantity qty * (p - lot.price)) by
            simp only [sellLoop, if_pos h0, if_neg h1]] at hx
        rcases List.mem_cons.1 hx with rfl | hmem
        · exact Or.inr ⟨lt_of_not_le h1, lot, List.mem_cons_self _ _, rfl⟩
        · exact Or.inl (List.mem_cons_of_mem _ hmem)
    · rw [sellLoop_not_pos p h0 r _] at hx
      exact Or.inl hx

theorem sellLoop_Qsum_le (p : ℚ) :
    ∀ (lots : List Lot) (qty r : ℚ), (∀ lot ∈ lots, 0 ≤ lot.quantity) →
      Qsum (sellLoop p lots qty r).1 ≤ Qsum lots
  | [], qty, r, _ => le_of_eq (by simp [sellLoop])
  | lot :: rest, qty, r, hnn => by
    by_cases h0 : 0 < qty
    · by_cases h1 : lot.quantity - min lot.quantity qty ≤ eps
      · rw [show sellLoop p (lot :: rest) qty r =
            sellLoop p rest (qty - min lot.quantity qty)
              (r + min lot.quantity qty * (p - lot.price)) by
            simp only [sellLoop, if_pos h0, if_pos h1]]
        have h2 := sellLoop_Qsum_le p rest (qty - min lot.quantity qty)
          (r + min lot.quantity qty * (p - lot.price))
          (fun l hl => hnn l (List.mem_cons_of_mem _ hl))
        have h3 : 0 ≤ lot.quantity := hnn lot (List.mem_cons_self _ _)
        rw [Qsum_cons]
        linarith
      · rw [show sellLoop p (lot :: rest) qty r =
            ({ quantity := lot.quantity - min lot.quantity qty, price := lot.price }
              :: rest,
              r + min lot.quantity qty * (p - lot.price)) by
            simp only [sellLoop, if_pos h0, if_neg h1]]
        rw [Qsum_cons, Qsum_cons]
        have h3 : 0 ≤ lot.quantity := hnn lot (List.mem_cons_self _ _)
        have h4 : 0 ≤ min lot.quantity qty := le_min h3 (le_of_lt h0)
        simp only []
        linarith
    · rw [sellLoop_not_pos p h0 r _]

theorem sellLoop_Qsum_ge (p : ℚ) :
    ∀ (lots : List Lot) (qty r : ℚ), 0 ≤ qty →
      Qsum lots - qty - eps ≤ Qsum (sellLoop p lots qty r).1
  | [], qty, r, hq => by
    have := eps_pos
    simp only [sellLoop, Qsum]
    simp only [List.foldl_nil]
    linarith
  | lot :: rest, qty, r, hq => by
    by_cases h0 : 0 < qty
    · rcases min_cases lot.quantity qty with ⟨hmin, hcase⟩ | ⟨hmin, hcase⟩
      · -- the head lot is consumed entirely: min = lot.quantity ≤ qty
        have h1 : lot.quantity - min lot.quantity qty ≤ eps := by
          rw [hmin]; simp; exact le_of_lt eps_pos
        rw [show sellLoop p (lot :: rest) qty r =
            sellLoop p rest (qty - min lot.quantity qty)
              (r + min lot.quantity qty * (p - lot.price)) by
            simp only [sellLoop, if_pos h0, if_pos h1]]
        have h2 := sellLoop_Qsum_ge p rest (qty - min lot.quantity qty)
          (r + min lot.quantity qty * (p - lot.price)) (by rw [hmin]; linarith)
        rw [Qsum_cons]
        rw [hmin] at h2 ⊢
        linarith
      · -- min = qty < lot.quantity: the sale is absorbed by the head lot
        by_cases h1 : lot.quantity - min lot.quantity qty ≤ eps
        · rw [show sellLoop p (lot :: rest) qty r =
              sellLoop p rest (qty - min lot.quantity qty)
                (r + min lot.quantity qty * (p - lot.price)) by
              simp only [sellLoop, if_pos h0, if_pos h1]]
          rw [hmin] at h1 ⊢
          rw [sub_self, sellLoop_not_pos p (lt_irrefl 0) _]
          rw [Qsum_cons]
          linarith
        · rw [show sellLoop p (lot :: rest) qty r =
              ({ quantity := lot.quantity - min lot.quantity qty, price := lot.price }
                :: rest,
                r + min lot.quantity qty * (p - lot.price)) by
              simp only [sellLoop, if_pos h0, if_neg h1]]
          rw [Qsum_cons, Qsum_cons, hmin]
          have := eps_pos
          simp only []
          linarith
    · rw [sellLoop_not_pos p h0 r _]
      have := eps_pos
      linarith

/-! ## Step lemmas for the replay loop -/

theorem lookupA_ensureLots_self (m : List (String × List Lot)) (a : String) :
    lookupA a (ensureLots m a) = some ((lookupA a m).getD []) := by
  unfold ensureLots
  cases h : lookupA a m with
  | some v => simp [h]
  | none => simp [h, lookupA_setA_self]

theorem lookupA_ensureLots_ne {k a : String} (h : k ≠ a)
    (m : List (String × List Lot)) : lookupA k (ensureLots m a) = lookupA k m := by
  unfold ensureLots
  cases hm : lookupA a m with
  | some v => simp
  | none => simp [lookupA_setA_ne (Ne.symm h)]

theorem lookupA_ensureRealised_self (m : List (String × ℚ)) (a : String) :
    (lookupA a (ensureRealised m a)).getD 0 = (lookupA a m).getD 0 := by
  unfold ensureRealised
  cases h : lookupA a m with
  | some v => simp [h]
  | none => simp [h, lookupA_setA_self]

theorem lookupA_ensureRealised_ne {k a : String} (h : k ≠ a)
    (m : List (String × ℚ)) : lookupA k (ensureRealised m a) = lookupA k m := by
  unfold ensureRealised
  cases hm : lookupA a m with
  | some v => simp
  | none => simp [lookupA_setA_ne (Ne.symm h)]

theorem sellLoop_fst_zero (p : ℚ) (lots : List Lot) (qty r : ℚ) :
    (sellLoop p lots qty r).1 = (sellLoop p lots qty 0).1 :=
  sellLoop_fst_realised_indep p lots qty r 0

theorem processTx_lots (st : RState) (tx : Tx) :
    (processTx st tx).lotsByAsset = stepLots st.lotsByAsset tx := by
  unfold processTx stepLots
  by_cases hb : tx.type = "BUY"
  · simp only [if_pos hb]
  · by_cases hs : tx.type = "SELL"
    · simp only [if_neg hb, if_pos hs]
      rw [sellLoop_fst_zero]
    · simp only [if_neg hb, if_neg hs]

theorem foldl_processTx_lots :
    ∀ (L : List Tx) (st : RState),
      (L.foldl processTx st).lotsByAsset = L.foldl stepLots st.lotsByAsset
  | [], _ => rfl
  | tx :: rest, st => by
    rw [List.foldl_cons, List.foldl_cons, foldl_processTx_lots rest _, processTx_lots]

theorem stepLots_ne {tx : Tx} {a : String} (h : tx.asset ≠ a)
    (m : List (String × List Lot)) : lookupA a (stepLots m tx) = lookupA a m := by
  unfold stepLots
  by_cases hb : tx.type = "BUY"
  · simp only [if_pos hb]
    rw [lookupA_setA_ne h, lookupA_ensureLots_ne (Ne.symm h)]
  · by_cases hs : tx.type = "SELL"
    · simp only [if_neg hb, if_pos hs]
      rw [lookupA_setA_ne h, lookupA_ensureLots_ne (Ne.symm h)]
    · simp only [if_neg hb, if_neg hs]
      rw [lookupA_ensureLots_ne (Ne.symm h)]

theorem stepLots_buy {tx : Tx} (hb : tx.type = "BUY")
    (m : List (String × List Lot)) :
    lookupA tx.asset (stepLots m tx) =
      some ((lookupA tx.asset m).getD [] ++ [⟨tx.quantity, tx.price⟩]) := by
  unfold stepLots
  simp only [if_pos hb]
  rw [lookupA_setA_self, lookupA_ensureLots_self, Option.getD_some]

theorem stepLots_sell {tx : Tx} (hs : tx.type = "SELL")
    (m : List (String × List Lot)) :
    lookupA tx.asset (stepLots m tx) =
      some (sellLoop tx.price ((lookupA tx.asset m).getD []) tx.quantity 0).1 := by
  have hb : ¬ tx.type = "BUY" := by rw [hs]; decide
  unfold stepLots
  simp only [if_neg hb, if_pos hs]
  rw [lookupA_setA_self, lookupA_ensureLots_self, Option.getD_some]

theorem stepLots_other {tx : Tx} (hb : ¬ tx.type = "BUY") (hs : ¬ tx.type = "SELL")
    (m : List (String × List Lot)) :
    lookupA tx.asset (stepLots m tx) = some ((lookupA tx.asset m).getD []) := by
  unfold stepLots
  simp only [if_neg hb, if_neg hs]
  exact lookupA_ensureLots_self m tx.asset

theorem processTx_realised_ne {tx : Tx} {a : String} (h : tx.asset ≠ a)
    (st : RState) :
    lookupA a (processTx st tx).realisedByAsset = lookupA a st.realisedByAsset := by
  unfold processTx
  by_cases hb : tx.type = "BUY"
  · simp only [if_pos hb]
    exact lookupA_ensureRealised_ne (Ne.symm h) _
  · by_cases hs : tx.type = "SELL"
    · simp only [if_neg hb, if_pos hs]
      rw [lookupA_setA_ne h, lookupA_ensureRealised_ne (Ne.symm h)]
    · simp only [if_neg hb, if_neg hs]
      exact lookupA_ensureRealised_ne (Ne.symm h) _

theorem processTx_realised_self_notSell {tx : Tx} (hs : ¬ tx.type = "SELL")
    (st : RState) :
    (lookupA tx.asset (processTx st tx).realisedByAsset).getD 0 =
      (lookupA tx.asset st.realisedByAsset).getD 0 := by
  unfold processTx
  by_cases hb : tx.type = "BUY"
  · simp only [if_pos hb]
    exact lookupA_ensureRealised_self _ _
  · simp only [if_neg hb, if_neg hs]
    exact lookupA_ensureRealised_self _ _

theorem processTx_realised_self_sell {tx : Tx} (hs : tx.type = "SELL")
    (st : RState) :
    (lookupA tx.asset (processTx st tx).realisedByAsset).getD 0 =
      (lookupA tx.asset st.realisedByAsset).getD 0 +
        ((fifoConsume tx.quantity ((lookupA tx.asset st.lotsByAsset).getD [])).map
          (fun c => c.1 * (tx.price - c.2))).sum := by
  have hb : ¬ tx.type = "BUY" := by rw [hs]; decide
  unfold processTx
  simp only [if_neg hb, if_pos hs]
  rw [lookupA_setA_self]
  rw [Option.getD_some]
  rw [sellLoop_snd]
  rw [lookupA_ensureRealised_self, lookupA_ensureLots_self, Option.getD_some]

/-- The realized accumulator computed by the replay loop refines the
spec-side FIFO sum `realisedSpec`. -/
theorem foldl_processTx_realised (a : String) :
    ∀ (L : List Tx) (st : RState),
      (lookupA a (L.foldl processTx st).realisedByAsset).getD 0 =
        (lookupA a st.realisedByAsset).getD 0 + realisedSpec a L st.lotsByAsset
  | [], st => by simp [realisedSpec]
  | tx :: rest, st => by
    rw [List.foldl_cons, foldl_processTx_realised a rest (processTx st tx)]
    rw [show realisedSpec a (tx :: rest) st.lotsByAsset =
      (if tx.asset = a ∧ tx.type = "SELL" then
        ((fifoConsume tx.quantity ((lookupA tx.asset st.lotsByAsset).getD [])).map
          (fun c => c.1 * (tx.price - c.2))).sum
      else 0) + realisedSpec a rest (stepLots st.lotsByAsset tx) from rfl]
    rw [processTx_lots]
    by_cases ha : tx.asset = a
    · subst ha
      by_cases hs : tx.type = "SELL"
      · rw [processTx_realised_self_sell hs, if_pos ⟨rfl, hs⟩]
        ring
      · rw [processTx_realised_self_notSell hs,
          if_neg (fun hc => hs hc.2)]
        ring
    · rw [processTx_realised_ne ha, if_neg (fun hc => ha hc.1)]
      ring

/-! ## Reading the summary map -/

theorem mkSummary_quantity (a : String) (p : List (String × ℚ)) (l : List Lot)
    (r : ℚ) : (mkSummary a p l r).quantity = Qsum l := rfl

theorem mkSummary_invested (a : String) (p : List (String × ℚ)) (l : List Lot)
    (r : ℚ) : (mkSummary a p l r).invested = ISum l := rfl

theorem mkSummary_currentPrice (a : String) (p : List (String × ℚ)) (l : List Lot)
    (r : ℚ) : (mkSummary a p l r).currentPrice = (lookupA a p).getD 0 := rfl

theorem mkSummary_value (a : String) (p : List (String × ℚ)) (l : List Lot)
    (r : ℚ) : (mkSummary a p l r).value = (lookupA a p).getD 0 * Qsum l := rfl

theorem mkSummary_realised (a : String) (p : List (String × ℚ)) (l : List Lot)
    (r : ℚ) : (mkSummary a p l r).realised = r := rfl

theorem mkSummary_unrealised (a : String) (p : List (String × ℚ)) (l : List Lot)
    (r : ℚ) :
    (mkSummary a p l r).unrealised = (lookupA a p).getD 0 * Qsum l - ISum l := rfl

theorem mkSummary_pnl (a : String) (p : List (String × ℚ)) (l : List Lot)
    (r : ℚ) :
    (mkSummary a p l r).pnl = r + ((lookupA a p).getD 0 * Qsum l - ISum l) := rfl

theorem mkSummary_pnlPercent (a : String) (p : List (String × ℚ)) (l : List Lot)
    (r : ℚ) :
    (mkSummary a p l r).pnlPercent =
      (if 0 < ISum l then
        some ((r + ((lookupA a p).getD 0 * Qsum l - ISum l)) / ISum l * 100)
      else none) := rfl

theorem computePnL_lookup (txs : List Tx) (prices : List (String × ℚ)) (a : String) :
    lookupA a (computePnL txs prices) =
      (lookupA a (replay (sortTx txs)).lotsByAsset).map
        (fun lots => mkSummary a prices lots
          ((lookupA a (replay (sortTx txs)).realisedByAsset).getD 0)) :=
  lookupA_map
    (fun k lots => mkSummary k prices lots
      ((lookupA k (replay (sortTx txs)).realisedByAsset).getD 0))
    a (replay (sortTx txs)).lotsByAsset

theorem sellLoop_single_full {q : ℚ} (h0 : 0 < q) (p p1 r : ℚ) :
    sellLoop p [⟨q, p1⟩] q r = ([], r + q * (p - p1)) := by
  simp only [sellLoop, if_pos h0]
  rw [if_pos (by simp [min_self, eps_pos.le])]
  simp [min_self]

/-! ## The claims -/

/-- C1: the realized PnL that `computePnL` reports for an asset equals the
spec-side FIFO sum `realisedSpec`: the sum over all SELL events of that
asset of `consumed × (sell price − lot acquisition price)` over the lot
portions consumed FIFO by each sale; and for a single BUY of quantity `q`
at price `p1` followed by a full SELL of quantity `q` at price `p2` of the
same asset, the summary's realised field is exactly `q * (p2 - p1)`. -/
theorem claim1_realised_fifo :
    (∀ (txs : List Tx) (prices : List (String × ℚ)) (a : String) (s : Summary),
        lookupA a (computePnL txs prices) = some s →
        s.realised = realisedSpec a (sortTx txs) []) ∧
    (∀ (p1 p2 q : ℚ) (prices : List (String × ℚ)), 0 ≤ q →
        ∃ s, lookupA "BTC" (computePnL
          [⟨"2024-01-01", "BTC", "BUY", p1, q⟩,
            ⟨"2024-02-01", "BTC", "SELL", p2, q⟩] prices) = some s ∧
          s.realised = q * (p2 - p1)) := by
  constructor
  · intro txs prices a s hs
    rw [computePnL_lookup] at hs
    rcases Option.map_eq_some'.1 hs with ⟨lots0, _, rfl⟩
    rw [mkSummary_realised]
    have h2 := foldl_processTx_realised a (sortTx txs) ⟨[], []⟩
    rw [show replay (sortTx txs) = (sortTx txs).foldl processTx ⟨[], []⟩ from rfl]
    rw [h2]
    simp [lookupA]
  · intro p1 p2 q prices hq
    have hlt : ¬ strLt ("2024-02-01" : String) "2024-01-01" := by decide
    have hsort : sortTx
        [⟨"2024-01-01", "BTC", "BUY", p1, q⟩,
          ⟨"2024-02-01", "BTC", "SELL", p2, q⟩] =
        [⟨"2024-01-01", "BTC", "BUY", p1, q⟩,
          ⟨"2024-02-01", "BTC", "SELL", p2, q⟩] := by
      simp [sortTx, sortK, insertK, hlt]
    rcases eq_or_lt_of_le hq with hq0 | h0
    · have hcomp : lookupA "BTC" (computePnL
          [⟨"2024-01-01", "BTC", "BUY", p1, q⟩,
            ⟨"2024-02-01", "BTC", "SELL", p2, q⟩] prices) =
          some (mkSummary "BTC" prices [⟨q, p1⟩] 0) := by
        rw [computePnL_lookup, hsort]
        norm_num [replay, processTx, ensureLots, ensureRealised, lookupA, setA,
          sellLoop_not_pos p2 (show ¬ (0 : ℚ) < q by rw [← hq0]; exact lt_irrefl 0)]
      refine ⟨_, hcomp, ?_⟩
      rw [mkSummary_realised, ← hq0]
      ring
    · have hcomp : lookupA "BTC" (computePnL
          [⟨"2024-01-01", "BTC", "BUY", p1, q⟩,
            ⟨"2024-02-01", "BTC", "SELL", p2, q⟩] prices) =
          some (mkSummary "BTC" prices [] (q * (p2 - p1))) := by
        rw [computePnL_lookup, hsort]
        norm_num [replay, processTx, ensureLots, ensureRealised, lookupA, setA,
          sellLoop_single_full h0]
      exact ⟨_, hcomp, mkSummary_realised _ _ _ _⟩

/-- Witness for C1 at concrete inputs. -/
theorem claim1_realised_fifo_witness :
    (mkSummary "BTC" [] [⟨1, 100⟩] 0).realised =
      realisedSpec "BTC" (sortTx [⟨"2024-01-01", "BTC", "BUY", 100, 1⟩]) [] ∧
    ∃ s, lookupA "BTC" (computePnL
        [⟨"2024-01-01", "BTC", "BUY", 100, 2⟩,
          ⟨"2024-02-01", "BTC", "SELL", 150, 2⟩] []) = some s ∧
      s.realised = 2 * (150 - 100) :=
  ⟨claim1_realised_fifo.1 [⟨"2024-01-01", "BTC", "BUY", 100, 1⟩] [] "BTC"
      (mkSummary "BTC" [] [⟨1, 100⟩] 0)
      (by rw [computePnL_lookup]
          norm_num [replay, sortTx, sortK, insertK, processTx, ensureLots,
            ensureRealised, lookupA, setA]),
    claim1_realised_fifo.2 100 150 2 [] (by norm_num)⟩

/-- C3: over-selling is tolerated: for `[BUY BTC qty=1 price=100;
SELL BTC qty=2 price=100]` and any price map, the BTC summary exists and
has `realised = 0`, `quantity = 0` and `invested = 0` (the unmatched
excess of the sale is silently discarded; `computePnL` is a total
function, so no error is possible). -/
theorem claim3_oversell_tolerant :
    ∀ prices : List (String × ℚ),
      (lookupA "BTC" (computePnL
        [⟨"2024-01-01", "BTC", "BUY", 100, 1⟩,
          ⟨"2024-02-01", "BTC", "SELL", 100, 2⟩] prices)).map
        (fun s => (s.realised, s.quantity, s.invested)) = some (0, 0, 0) := by
  intro prices
  have hlt : ¬ strLt ("2024-02-01" : String) "2024-01-01" := by decide
  rw [computePnL_lookup]
  norm_num [sortTx, sortK, insertK, hlt, replay, processTx, ensureLots,
    ensureRealised, lookupA, setA, sellLoop, eps, min_def, mkSummary, Qsum, ISum]

/-- C7: an asset present in the summary but absent from the price map gets
`currentPrice = 0`, `value = 0` and `unrealised = -invested`. -/
theorem claim7_missing_price :
    ∀ (txs : List Tx) (prices : List (String × ℚ)) (a : String) (s : Summary),
      lookupA a (computePnL txs prices) = some s →
      lookupA a prices = none →
      s.currentPrice = 0 ∧ s.value = 0 ∧ s.unrealised = - s.invested := by
  intro txs prices a s hs hp
  rw [computePnL_lookup] at hs
  rcases Option.map_eq_some'.1 hs with ⟨lots0, _, rfl⟩
  rw [mkSummary_currentPrice, mkSummary_value, mkSummary_unrealised,
    mkSummary_invested, hp]
  norm_num

/-- Witness for C7 at a concrete input. -/
theorem claim7_missing_price_witness :
    (mkSummary "BTC" [] [⟨1, 100⟩] 0).currentPrice = 0 ∧
    (mkSummary "BTC" [] [⟨1, 100⟩] 0).value = 0 ∧
    (mkSummary "BTC" [] [⟨1, 100⟩] 0).unrealised =
      - (mkSummary "BTC" [] [⟨1, 100⟩] 0).invested :=
  claim7_missing_price [⟨"2024-01-01", "BTC", "BUY", 100, 1⟩] [] "BTC"
    (mkSummary "BTC" [] [⟨1, 100⟩] 0)
    (by rw [computePnL_lookup]
        norm_num [replay, sortTx, sortK, insertK, processTx, ensureLots,
          ensureRealised, lookupA, setA])
    rfl

theorem computeTotals_eq (l : List (String × Summary)) :
    computeTotals l =
      { invested := (l.map (fun e => e.2.invested)).sum
        value := (l.map (fun e => e.2.value)).sum
        realised := (l.map (fun e => e.2.realised)).sum
        unrealised := (l.map (fun e => e.2.unrealised)).sum
        pnl := (l.map (fun e => e.2.pnl)).sum } := by
  have key : ∀ (l : List (String × Summary)) (t : Totals),
      l.foldl
        (fun t e =>
          { invested := t.invested + e.2.invested
            value := t.value + e.2.value
            realised := t.realised + e.2.realised
            unrealised := t.unrealised + e.2.unrealised
            pnl := t.pnl + e.2.pnl }) t =
      { invested := t.invested + (l.map (fun e => e.2.invested)).sum
        value := t.value + (l.map (fun e => e.2.value)).sum
        realised := t.realised + (l.map (fun e => e.2.realised)).sum
        unrealised := t.unrealised + (l.map (fun e => e.2.unrealised)).sum
        pnl := t.pnl + (l.map (fun e => e.2.pnl)).sum } := by
    intro l
    induction l with
    | nil => intro t; simp
    | cons e rest ih =>
      intro t
      rw [List.foldl_cons, ih]
      simp [add_assoc]
  unfold computeTotals
  rw [key]
  simp

/-- C9: `computeTotals` is a pure additive fold: permuting the summary
entries yields identical totals, and the empty summary yields all-zero
totals. -/
theorem claim9_totals_additive :
    (∀ s1 s2 : List (String × Summary), s1.Perm s2 →
      computeTotals s1 = computeTotals s2) ∧
    computeTotals [] =
      { invested := 0, value := 0, realised := 0, unrealised := 0, pnl := 0 } := by
  constructor
  · intro s1 s2 hperm
    rw [computeTotals_eq, computeTotals_eq]
    rw [(hperm.map (fun e => e.2.invested)).sum_eq,
      (hperm.map (fun e => e.2.value)).sum_eq,
      (hperm.map (fun e => e.2.realised)).sum_eq,
      (hperm.map (fun e => e.2.unrealised)).sum_eq,
      (hperm.map (fun e => e.2.pnl)).sum_eq]
  · rfl

/-- Witness for C9: swapping two concrete summary entries. -/
theorem claim9_totals_additive_witness :
    computeTotals [("A", ⟨1, 2, 3, 4, 5, 6, 7, 8, none⟩),
        ("B", ⟨9, 10, 11, 12, 13, 14, 15, 16, none⟩)] =
      computeTotals [("B", ⟨9, 10, 11, 12, 13, 14, 15, 16, none⟩),
        ("A", ⟨1, 2, 3, 4, 5, 6, 7, 8, none⟩)] :=
  claim9_totals_additive.1 _ _
    (List.Perm.swap ("B", (⟨9, 10, 11, 12, 13, 14, 15, 16, none⟩ : Summary))
      ("A", (⟨1, 2, 3, 4, 5, 6, 7, 8, none⟩ : Summary)) [])

/-- C4: `computePnL` processes the transactions in ascending date order
without assuming sorted input (the sort is a permutation of the input,
pairwise date-sorted), the sort is stable (transactions of one date keep
their input order: filtering by any date commutes with sorting), and the
output depends only on the sorted sequence. -/
theorem claim4_sort_stable :
    (∀ txs : List Tx,
      (sortTx txs).Pairwise (fun a b => strLe a.date b.date)) ∧
    (∀ txs : List Tx, (sortTx txs).Perm txs) ∧
    (∀ (txs : List Tx) (d : String),
      (sortTx txs).filter (fun tx => tx.date == d) =
        txs.filter (fun tx => tx.date == d)) ∧
    (∀ (txs1 txs2 : List Tx) (prices : List (String × ℚ)),
      sortTx txs1 = sortTx txs2 →
        computePnL txs1 prices = computePnL txs2 prices) := by
  refine ⟨sortK_pairwise Tx.date, sortK_perm Tx.date,
    fun txs d => sortK_filter Tx.date d txs, ?_⟩
  intro txs1 txs2 prices h
  unfold computePnL
  rw [h]

/-- Witness for C4: two inputs with the same sorted sequence produce the
same summary map. -/
theorem claim4_sort_stable_witness :
    computePnL [⟨"2024-01-01", "BTC", "BUY", 100, 1⟩,
        ⟨"2024-01-02", "ETH", "BUY", 50, 1⟩] [] =
      computePnL [⟨"2024-01-02", "ETH", "BUY", 50, 1⟩,
        ⟨"2024-01-01", "BTC", "BUY", 100, 1⟩] [] :=
  claim4_sort_stable.2.2.2 _ _ []
    (by
      have h1 : ¬ strLt ("2024-01-02" : String) "2024-01-01" := by decide
      have h2 : strLt ("2024-01-01" : String) "2024-01-02" := by decide
      simp [sortTx, sortK, insertK, h1, h2])

/-! ## Which assets appear in the summary (C5) -/

theorem stepLots_isSome (m : List (String × List Lot)) (tx : Tx) (a : String) :
    (lookupA a (stepLots m tx)).isSome ↔ (lookupA a m).isSome ∨ tx.asset = a := by
  by_cases ha : tx.asset = a
  · subst ha
    by_cases hb : tx.type = "BUY"
    · rw [stepLots_buy hb]; simp
    · by_cases hs : tx.type = "SELL"
      · rw [stepLots_sell hs]; simp
      · rw [stepLots_other hb hs]; simp
  · rw [stepLots_ne ha]
    simp [ha]

theorem foldl_stepLots_isSome (a : String) :
    ∀ (L : List Tx) (m : List (String × List Lot)),
      ((lookupA a (L.foldl stepLots m)).isSome ↔
        (lookupA a m).isSome ∨ ∃ tx ∈ L, tx.asset = a)
  | [], m => by simp
  | tx :: rest, m => by
    rw [List.foldl_cons, foldl_stepLots_isSome a rest (stepLots m tx),
      stepLots_isSome]
    constructor
    · rintro ((h | h) | h)
      · exact Or.inl h
      · exact Or.inr ⟨tx, List.mem_cons_self _ _, h⟩
      · rcases h with ⟨t, ht, hta⟩
        exact Or.inr ⟨t, List.mem_cons_of_mem _ ht, hta⟩
    · rintro (h | ⟨t, ht, hta⟩)
      · exact Or.inl (Or.inl h)
      · rcases List.mem_cons.1 ht with rfl | ht2
        · exact Or.inl (Or.inr hta)
        · exact Or.inr ⟨t, ht2, hta⟩

theorem replay_lots_eq_foldl_stepLots (txs : List Tx) :
    (replay (sortTx txs)).lotsByAsset = (sortTx txs).foldl stepLots [] := by
  rw [show replay (sortTx txs) = (sortTx txs).foldl processTx ⟨[], []⟩ from rfl,
    foldl_processTx_lots]

/-- C5 (amended): the summary map of `computePnL` contains an entry for an
asset exactly when the transaction list contains at least one transaction
of that asset — of any type, not only BUY: the replay loop registers the
asset key before dispatching on the transaction type.  In particular an
asset whose remaining quantity is zero but which has realized history
still appears. -/
theorem claim5_assets_with_any_tx :
    ∀ (txs : List Tx) (prices : List (String × ℚ)) (a : String),
      ((lookupA a (computePnL txs prices)).isSome = true ↔
        ∃ tx ∈ txs, tx.asset = a) := by
  intro txs prices a
  rw [computePnL_lookup, Option.isSome_map', replay_lots_eq_foldl_stepLots]
  have h := foldl_stepLots_isSome a (sortTx txs) []
  rw [show lookupA a ([] : List (String × List Lot)) = none from rfl] at h
  simp only [Option.isSome_none, Bool.false_eq_true, false_or] at h
  rw [h]
  constructor
  · rintro ⟨t, ht, hta⟩
    exact ⟨t, (sortK_perm Tx.date txs).mem_iff.1 ht, hta⟩
  · rintro ⟨t, ht, hta⟩
    exact ⟨t, (sortK_perm Tx.date txs).mem_iff.2 ht, hta⟩

/-- C5 counterexample: a SELL-only transaction list still creates a summary
entry for its asset although no BUY of that asset exists, refuting the
"if and only if at least one BUY" claim. -/
theorem claim5_counterexample :
    (lookupA "BTC" (computePnL
        [⟨"2024-01-01", "BTC", "SELL", 100, 1⟩] [])).isSome = true ∧
    ([(⟨"2024-01-01", "BTC", "SELL", 100, 1⟩ : Tx)].all
      (fun tx => !(tx.asset == "BTC" && tx.type == "BUY"))) = true := by
  constructor
  · rw [computePnL_lookup]
    norm_num [replay, sortTx, sortK, insertK, processTx, ensureLots,
      ensureRealised, lookupA, setA, sellLoop]
  · rfl

/-! ## Lot invariants (C6, C2) -/

theorem stepLots_preserve {P : Lot → Prop}
    (heps : ∀ x lot : Lot, P lot → x.price = lot.price → eps < x.quantity → P x)
    {tx : Tx} (hnew : P ⟨tx.quantity, tx.price⟩)
    {m : List (String × List Lot)}
    (hm : ∀ b, ∀ lot ∈ (lookupA b m).getD [], P lot) :
    ∀ b, ∀ lot ∈ (lookupA b (stepLots m tx)).getD [], P lot := by
  intro b lot hmem
  by_cases ha : tx.asset = b
  · subst ha
    by_cases hb : tx.type = "BUY"
    · rw [stepLots_buy hb, Option.getD_some] at hmem
      rcases List.mem_append.1 hmem with h | h
      · exact hm _ lot h
      · rw [List.mem_singleton.1 h]; exact hnew
    · by_cases hs : tx.type = "SELL"
      · rw [stepLots_sell hs, Option.getD_some] at hmem
        rcases sellLoop_mem _ _ _ _ lot hmem with h | ⟨hq, lot', hmem', hp⟩
        · exact hm _ lot h
        · exact heps lot lot' (hm _ lot' hmem') hp hq
      · rw [stepLots_other hb hs, Option.getD_some] at hmem
        exact hm _ lot hmem
  · rw [stepLots_ne ha] at hmem
    exact hm _ lot hmem

theorem foldl_stepLots_preserve {P : Lot → Prop}
    (heps : ∀ x lot : Lot, P lot → x.price = lot.price → eps < x.quantity → P x) :
    ∀ (L : List Tx) (m : List (String × List Lot)),
      (∀ tx ∈ L, P ⟨tx.quantity, tx.price⟩) →
      (∀ b, ∀ lot ∈ (lookupA b m).getD [], P lot) →
      ∀ b, ∀ lot ∈ (lookupA b (L.foldl stepLots m)).getD [], P lot
  | [], _, _, hm => hm
  | tx :: rest, m, hL, hm => by
    rw [List.foldl_cons]
    exact foldl_stepLots_preserve heps rest (stepLots m tx)
      (fun t ht => hL t (List.mem_cons_of_mem _ ht))
      (stepLots_preserve heps (hL tx (List.mem_cons_self _ _)) hm)

/-- C6 (amended): for transactions with non-negative prices and
quantities — the input domain the data model describes — `invested` is
never negative, `pnlPercent` is `none` exactly when `invested` is zero,
and otherwise carries `pnl / invested * 100`. -/
theorem claim6_pnlPercent :
    ∀ (txs : List Tx) (prices : List (String × ℚ)),
      (∀ tx ∈ txs, 0 ≤ tx.price ∧ 0 ≤ tx.quantity) →
      ∀ (a : String) (s : Summary), lookupA a (computePnL txs prices) = some s →
        0 ≤ s.invested ∧ (s.pnlPercent = none ↔ s.invested = 0) ∧
        ∀ x : ℚ, s.pnlPercent = some x → x = s.pnl / s.invested * 100 := by
  intro txs prices hnn a s hs
  rw [computePnL_lookup] at hs
  rcases Option.map_eq_some'.1 hs with ⟨lots0, hl, rfl⟩
  have hOK : ∀ lot ∈ lots0, 0 ≤ lot.quantity ∧ 0 ≤ lot.price := by
    have h := foldl_stepLots_preserve
      (P := fun lot => 0 ≤ lot.quantity ∧ 0 ≤ lot.price)
      (fun x lot hPl hp hq => ⟨le_of_lt (lt_trans eps_pos hq), hp ▸ hPl.2⟩)
      (sortTx txs) []
      (fun t ht =>
        ⟨(hnn t ((sortK_perm Tx.date txs).mem_iff.1 ht)).2,
          (hnn t ((sortK_perm Tx.date txs).mem_iff.1 ht)).1⟩)
      (by simp [lookupA])
    intro lot hmem
    apply h a
    rw [← replay_lots_eq_foldl_stepLots, hl, Option.getD_some]
    exact hmem
  have hInv : 0 ≤ ISum lots0 := ISum_nonneg hOK
  refine ⟨by rw [mkSummary_invested]; exact hInv, ?_, ?_⟩
  · rw [mkSummary_pnlPercent, mkSummary_invested]
    by_cases hpos : 0 < ISum lots0
    · rw [if_pos hpos]
      simp [ne_of_gt hpos]
    · rw [if_neg hpos]
      simp [le_antisymm (not_lt.1 hpos) hInv]
  · intro x hx
    rw [mkSummary_pnlPercent] at hx
    by_cases hpos : 0 < ISum lots0
    · rw [if_pos hpos] at hx
      rw [mkSummary_pnl, mkSummary_invested]
      exact (Option.some_inj.1 hx).symm
    · rw [if_neg hpos] at hx
      exact absurd hx (by simp)

/-- Witness for C6 (amended) at a concrete input. -/
theorem claim6_pnlPercent_witness :
    0 ≤ (mkSummary "BTC" [] [⟨1, 100⟩] 0).invested ∧
    ((mkSummary "BTC" [] [⟨1, 100⟩] 0).pnlPercent = none ↔
      (mkSummary "BTC" [] [⟨1, 100⟩] 0).invested = 0) :=
  have h := claim6_pnlPercent [⟨"2024-01-01", "BTC", "BUY", 100, 1⟩] []
    (by
      intro tx htx
      rw [List.mem_singleton] at htx
      subst htx
      norm_num)
    "BTC" (mkSummary "BTC" [] [⟨1, 100⟩] 0)
    (by rw [computePnL_lookup]
        norm_num [replay, sortTx, sortK, insertK, processTx, ensureLots,
          ensureRealised, lookupA, setA])
  ⟨h.1, h.2.1⟩

/-! ## Quantity bounds (C2) -/

theorem boughtQ_cons (a : String) (tx : Tx) (L : List Tx) :
    boughtQ a (tx :: L) =
      (if tx.asset = a ∧ tx.type = "BUY" then tx.quantity else 0) + boughtQ a L := by
  by_cases h1 : tx.asset = a <;> by_cases h2 : tx.type = "BUY" <;>
    simp [boughtQ, List.filter_cons, h1, h2]

theorem soldQ_cons (a : String) (tx : Tx) (L : List Tx) :
    soldQ a (tx :: L) =
      (if tx.asset = a ∧ tx.type = "SELL" then tx.quantity else 0) + soldQ a L := by
  by_cases h1 : tx.asset = a <;> by_cases h2 : tx.type = "SELL" <;>
    simp [soldQ, List.filter_cons, h1, h2]

theorem sellCount_cons (a : String) (tx : Tx) (L : List Tx) :
    sellCount a (tx :: L) =
      (if tx.asset = a ∧ tx.type = "SELL" then 1 else 0) + sellCount a L := by
  by_cases h1 : tx.asset = a <;> by_cases h2 : tx.type = "SELL" <;>
    simp [sellCount, List.filter_cons, h1, h2, Nat.add_comm]

theorem Qsum_append_single (l : List Lot) (x : Lot) :
    Qsum (l ++ [x]) = Qsum l + x.quantity := by
  simp [Qsum_eq]

/-- Bounds on the remaining quantity per asset over a replay: it never
exceeds what the initial state held plus everything bought, and it loses at
most what was sold plus one `eps` residue per SELL. -/
theorem foldl_stepLots_qbounds (a : String) :
    ∀ (L : List Tx) (m : List (String × List Lot)),
      (∀ tx ∈ L, 0 ≤ tx.quantity) →
      (∀ b, ∀ lot ∈ (lookupA b m).getD [], 0 ≤ lot.quantity) →
      Qsum ((lookupA a (L.foldl stepLots m)).getD []) ≤
          Qsum ((lookupA a m).getD []) + boughtQ a L ∧
        Qsum ((lookupA a m).getD []) + boughtQ a L - soldQ a L
            - eps * (sellCount a L : ℚ) ≤
          Qsum ((lookupA a (L.foldl stepLots m)).getD [])
  | [], m, _, _ => by simp [boughtQ, soldQ, sellCount]
  | tx :: rest, m, hq, hm => by
    rw [List.foldl_cons]
    have hq' : ∀ t ∈ rest, 0 ≤ t.quantity :=
      fun t ht => hq t (List.mem_cons_of_mem _ ht)
    have hm' : ∀ b, ∀ lot ∈ (lookupA b (stepLots m tx)).getD [], 0 ≤ lot.quantity :=
      stepLots_preserve (P := fun lot => 0 ≤ lot.quantity)
        (fun x lot _ _ hx => le_of_lt (lt_trans eps_pos hx))
        (hq tx (List.mem_cons_self _ _)) hm
    have IH := foldl_stepLots_qbounds a rest (stepLots m tx) hq' hm'
    rw [boughtQ_cons, soldQ_cons, sellCount_cons]
    by_cases ha : tx.asset = a
    · subst ha
      by_cases hb : tx.type = "BUY"
      · have hbs : ¬ tx.type = "SELL" := by rw [hb]; decide
        have hstep : Qsum ((lookupA tx.asset (stepLots m tx)).getD []) =
            Qsum ((lookupA tx.asset m).getD []) + tx.quantity := by
          rw [stepLots_buy hb, Option.getD_some, Qsum_append_single]
        rw [if_pos ⟨rfl, hb⟩, if_neg (fun h => hbs h.2), if_neg (fun h => hbs h.2)]
        rw [hstep] at IH
        push_cast
        constructor <;> linarith [IH.1, IH.2]
      · by_cases hs : tx.type = "SELL"
        · have hlots : (lookupA tx.asset (stepLots m tx)).getD [] =
              (sellLoop tx.price ((lookupA tx.asset m).getD []) tx.quantity 0).1 := by
            rw [stepLots_sell hs, Option.getD_some]
          have hub : Qsum ((lookupA tx.asset (stepLots m tx)).getD []) ≤
              Qsum ((lookupA tx.asset m).getD []) := by
            rw [hlots]
            exact sellLoop_Qsum_le tx.price _ tx.quantity 0 (hm tx.asset)
          have hlb : Qsum ((lookupA tx.asset m).getD []) - tx.quantity - eps ≤
              Qsum ((lookupA tx.asset (stepLots m tx)).getD []) := by
            rw [hlots]
            exact sellLoop_Qsum_ge tx.price _ tx.quantity 0
              (hq tx (List.mem_cons_self _ _))
          rw [if_neg (fun h => hb h.2), if_pos ⟨rfl, hs⟩, if_pos ⟨rfl, hs⟩]
          push_cast
          constructor <;> linarith [IH.1, IH.2]
        · have hstep : Qsum ((lookupA tx.asset (stepLots m tx)).getD []) =
              Qsum ((lookupA tx.asset m).getD []) := by
            rw [stepLots_other hb hs, Option.getD_some]
          rw [if_neg (fun h => hb h.2), if_neg (fun h => hs h.2),
            if_neg (fun h => hs h.2)]
          rw [hstep] at IH
          push_cast
          constructor <;> linarith [IH.1, IH.2]
    · have hstep : Qsum ((lookupA a (stepLots m tx)).getD []) =
          Qsum ((lookupA a m).getD []) := by
        rw [stepLots_ne ha]
      rw [if_neg (fun h => ha h.1), if_neg (fun h => ha h.1),
        if_neg (fun h => ha h.1)]
      rw [hstep] at IH
      push_cast
      constructor <;> linarith [IH.1, IH.2]

theorem sortTx_perm (txs : List Tx) : (sortTx txs).Perm txs :=
  sortK_perm Tx.date txs

theorem boughtQ_perm {L1 L2 : List Tx} (h : L1.Perm L2) (a : String) :
    boughtQ a L1 = boughtQ a L2 := by
  unfold boughtQ
  exact ((h.filter _).map _).sum_eq

theorem soldQ_perm {L1 L2 : List Tx} (h : L1.Perm L2) (a : String) :
    soldQ a L1 = soldQ a L2 := by
  unfold soldQ
  exact ((h.filter _).map _).sum_eq

theorem sellCount_perm {L1 L2 : List Tx} (h : L1.Perm L2) (a : String) :
    sellCount a L1 = sellCount a L2 := by
  unfold sellCount
  exact (h.filter _).length_eq

/-- C2 (amended): for transactions with non-negative quantities, the
remaining quantity of an asset's open lots is never negative, never exceeds
the total quantity bought, and is at least total bought minus total sold
minus one `eps` residue per SELL of the asset.  Exact equality with
`max 0 (bought − sold)` does not hold in general (see the
counterexample). -/
theorem claim2_remaining_quantity :
    ∀ (txs : List Tx), (∀ tx ∈ txs, 0 ≤ tx.quantity) →
      ∀ (prices : List (String × ℚ)) (a : String) (s : Summary),
        lookupA a (computePnL txs prices) = some s →
        0 ≤ s.quantity ∧ s.quantity ≤ boughtQ a txs ∧
          boughtQ a txs - soldQ a txs - eps * (sellCount a txs : ℚ) ≤ s.quantity := by
  intro txs hq prices a s hs
  rw [computePnL_lookup] at hs
  rcases Option.map_eq_some'.1 hs with ⟨lots0, hl, rfl⟩
  rw [replay_lots_eq_foldl_stepLots] at hl
  have hq' : ∀ t ∈ sortTx txs, 0 ≤ t.quantity :=
    fun t ht => hq t ((sortK_perm Tx.date txs).mem_iff.1 ht)
  have hbounds := foldl_stepLots_qbounds a (sortTx txs) [] hq' (by simp [lookupA])
  rw [hl, Option.getD_some] at hbounds
  rw [show lookupA a ([] : List (String × List Lot)) = none from rfl] at hbounds
  rw [show (Option.getD (none : Option (List Lot)) []) = [] from rfl] at hbounds
  rw [show Qsum [] = 0 from rfl] at hbounds
  have hnn : ∀ lot ∈ lots0, 0 ≤ lot.quantity := by
    have h := foldl_stepLots_preserve (P := fun lot => 0 ≤ lot.quantity)
      (fun x lot _ _ hx => le_of_lt (lt_trans eps_pos hx))
      (sortTx txs) [] hq' (by simp [lookupA])
    intro lot hmem
    apply h a
    rw [hl, Option.getD_some]
    exact hmem
  rw [mkSummary_quantity]
  refine ⟨Qsum_nonneg hnn, ?_, ?_⟩
  · rw [← boughtQ_perm (sortTx_perm txs) a]
    linarith [hbounds.1]
  · rw [← boughtQ_perm (sortTx_perm txs) a, ← soldQ_perm (sortTx_perm txs) a,
      ← sellCount_perm (sortTx_perm txs) a]
    linarith [hbounds.2]

/-- Witness for C2 (amended) at a concrete input. -/
theorem claim2_remaining_quantity_witness :
    0 ≤ (mkSummary "BTC" [] [⟨1, 100⟩] 0).quantity ∧
    (mkSummary "BTC" [] [⟨1, 100⟩] 0).quantity ≤
      boughtQ "BTC" [⟨"2024-01-01", "BTC", "BUY", 100, 1⟩] ∧
    boughtQ "BTC" [⟨"2024-01-01", "BTC", "BUY", 100, 1⟩]
        - soldQ "BTC" [⟨"2024-01-01", "BTC", "BUY", 100, 1⟩]
        - eps * (sellCount "BTC" [⟨"2024-01-01", "BTC", "BUY", 100, 1⟩] : ℚ) ≤
      (mkSummary "BTC" [] [⟨1, 100⟩] 0).quantity :=
  claim2_remaining_quantity [⟨"2024-01-01", "BTC", "BUY", 100, 1⟩]
    (by
      intro tx htx
      rw [List.mem_singleton] at htx
      subst htx
      norm_num)
    [] "BTC" (mkSummary "BTC" [] [⟨1, 100⟩] 0)
    (by rw [computePnL_lookup]
        norm_num [replay, sortTx, sortK, insertK, processTx, ensureLots,
          ensureRealised, lookupA, setA])

/-- C2 counterexample: for `[SELL BTC 5 @ 2024-01-01; BUY BTC 3 @ 2024-01-02]`
the remaining quantity is 3 while `max 0 (bought − sold) = max 0 (3 − 5) = 0`:
an over-sell before a later BUY breaks the claimed equality. -/
theorem claim2_counterexample :
    ¬ ((lookupA "BTC" (computePnL
          [⟨"2024-01-01", "BTC", "SELL", 100, 5⟩,
            ⟨"2024-01-02", "BTC", "BUY", 100, 3⟩] [])).map Summary.quantity =
        some (max 0
          (boughtQ "BTC"
              [⟨"2024-01-01", "BTC", "SELL", 100, 5⟩,
                ⟨"2024-01-02", "BTC", "BUY", 100, 3⟩] -
            soldQ "BTC"
              [⟨"2024-01-01", "BTC", "SELL", 100, 5⟩,
                ⟨"2024-01-02", "BTC", "BUY", 100, 3⟩]))) := by
  have hlt : ¬ strLt ("2024-01-02" : String) "2024-01-01" := by decide
  have h1 : ¬ ("SELL" : String) = "BUY" := by decide
  have h2 : ¬ ("BUY" : String) = "SELL" := by decide
  rw [computePnL_lookup]
  norm_num [sortTx, sortK, insertK, hlt, h1, h2, replay, processTx, ensureLots,
    ensureRealised, lookupA, setA, sellLoop, mkSummary, Qsum, ISum,
    boughtQ, soldQ, List.filter_cons]

/-- C6 counterexample: a BUY with a negative (well-typed numeric) price
yields a strictly negative `invested` with `pnlPercent = none`, refuting
"invested is never negative" and the "null exactly when invested is 0"
biconditional for arbitrary well-typed input. -/
theorem claim6_counterexample :
    (lookupA "BTC" (computePnL [⟨"2024-01-01", "BTC", "BUY", -100, 1⟩] [])).map
      (fun s => (s.invested, s.pnlPercent)) = some (-100, none) := by
  rw [computePnL_lookup]
  norm_num [replay, sortTx, sortK, insertK, processTx, ensureLots,
    ensureRealised, lookupA, setA, mkSummary, Qsum, ISum]

/-! ## The monthly history (C8, C10) -/

theorem dedupFirstAux_mem :
    ∀ (seen l : List String) (x : String),
      x ∈ dedupFirstAux seen l ↔ x ∈ l ∧ x ∉ seen
  | seen, [], x => by simp [dedupFirstAux]
  | seen, y :: ys, x => by
    unfold dedupFirstAux
    by_cases h : y ∈ seen
    · rw [if_pos h, dedupFirstAux_mem seen ys x]
      constructor
      · rintro ⟨hm, hn⟩
        exact ⟨List.mem_cons_of_mem _ hm, hn⟩
      · rintro ⟨hm, hn⟩
        rcases List.mem_cons.1 hm with rfl | hm2
        · exact absurd h hn
        · exact ⟨hm2, hn⟩
    · rw [if_neg h]
      constructor
      · intro hx
        rcases List.mem_cons.1 hx with rfl | hx2
        · exact ⟨List.mem_cons_self _ _, h⟩
        · have h2 := (dedupFirstAux_mem (y :: seen) ys x).1 hx2
          exact ⟨List.mem_cons_of_mem _ h2.1,
            fun hseen => h2.2 (List.mem_cons_of_mem _ hseen)⟩
      · rintro ⟨hm, hn⟩
        by_cases hxy : x = y
        · subst hxy
          exact List.mem_cons_self _ _
        · rcases List.mem_cons.1 hm with rfl | hm2
          · exact absurd rfl hxy
          · exact List.mem_cons_of_mem _
              ((dedupFirstAux_mem (y :: seen) ys x).2
                ⟨hm2, fun hc => (List.mem_cons.1 hc).elim hxy hn⟩)

theorem dedupFirstAux_nodup : ∀ (seen l : List String), (dedupFirstAux seen l).Nodup
  | seen, [] => List.Pairwise.nil
  | seen, y :: ys => by
    unfold dedupFirstAux
    by_cases h : y ∈ seen
    · rw [if_pos h]
      exact dedupFirstAux_nodup seen ys
    · rw [if_neg h]
      rw [List.nodup_cons]
      exact ⟨fun hy => ((dedupFirstAux_mem _ _ _).1 hy).2 (List.mem_cons_self _ _),
        dedupFirstAux_nodup (y :: seen) ys⟩

theorem mem_monthsOf (txs : List Tx) (m : String) :
    m ∈ monthsOf txs ↔ ∃ tx ∈ txs, tx.date.take 7 = m := by
  unfold monthsOf dedupFirst
  rw [(sortK_perm id _).mem_iff, dedupFirstAux_mem]
  simp [List.mem_map]

theorem monthsOf_pairwise_le (txs : List Tx) :
    (monthsOf txs).Pairwise (fun a b => strLe a b) :=
  sortK_pairwise id _

theorem monthsOf_pairwise_lt (txs : List Tx) :
    (monthsOf txs).Pairwise (fun a b => strLt a b) :=
  pairwise_strLt_of_nodup (monthsOf_pairwise_le txs)
    ((sortK_perm id _).nodup_iff.2 (dedupFirstAux_nodup [] _))

/-- One unfolding step of the history loop, with the carried
`prevPortfolioValue` and `prevInvested` spelled out. -/
theorem historyAux_cons (t : List Tx) (p : List (String × ℚ)) (m : String)
    (ms : List String) (pv inv : ℚ) :
    historyAux t p (m :: ms) pv inv =
      { month := m
        invested := (computeTotals (computePnL
          (t.filter (fun tx => decide (strLe (tx.date.take 7) m))) p)).invested
        value := (computeTotals (computePnL
          (t.filter (fun tx => decide (strLe (tx.date.take 7) m))) p)).value
        realised := (computeTotals (computePnL
          (t.filter (fun tx => decide (strLe (tx.date.take 7) m))) p)).realised
        unrealised := (computeTotals (computePnL
          (t.filter (fun tx => decide (strLe (tx.date.take 7) m))) p)).unrealised
        pnl := (computeTotals (computePnL
          (t.filter (fun tx => decide (strLe (tx.date.take 7) m))) p)).pnl
        ret :=
          (if 0 < pv then
            (((computeTotals (computePnL
                  (t.filter (fun tx => decide (strLe (tx.date.take 7) m))) p)).value +
                (computeTotals (computePnL
                  (t.filter (fun tx => decide (strLe (tx.date.take 7) m))) p)).realised)
              - pv -
              ((computeTotals (computePnL
                  (t.filter (fun tx => decide (strLe (tx.date.take 7) m))) p)).invested
                - inv)) / pv
          else 0) * 100 } ::
      historyAux t p ms
        ((computeTotals (computePnL
            (t.filter (fun tx => decide (strLe (tx.date.take 7) m))) p)).value +
          (computeTotals (computePnL
            (t.filter (fun tx => decide (strLe (tx.date.take 7) m))) p)).realised)
        (computeTotals (computePnL
          (t.filter (fun tx => decide (strLe (tx.date.take 7) m))) p)).invested :=
  rfl

theorem historyAux_map_month (t : List Tx) (p : List (String × ℚ)) :
    ∀ (ms : List String) (pv inv : ℚ),
      (historyAux t p ms pv inv).map HistoryEntry.month = ms
  | [], _, _ => rfl
  | m :: ms, pv, inv => by
    rw [historyAux_cons, List.map_cons, historyAux_map_month t p ms]

theorem historyAux_head (t : List Tx) (p : List (String × ℚ)) :
    ∀ (ms : List String) (pv inv : ℚ) (e : HistoryEntry),
      (historyAux t p ms pv inv).head? = some e →
        e.ret = (if 0 < pv then
          ((e.value + e.realised) - pv - (e.invested - inv)) / pv else 0) * 100
  | [], _, _, e => by simp [historyAux]
  | m :: ms, pv, inv, e => by
    rw [historyAux_cons, List.head?_cons, Option.some_inj]
    rintro rfl
    rfl

theorem historyAux_chain (t : List Tx) (p : List (String × ℚ)) :
    ∀ (ms : List String) (pv inv : ℚ),
      List.Chain' retStep (historyAux t p ms pv inv)
  | [], _, _ => List.chain'_nil
  | m :: ms, pv, inv => by
    rw [historyAux_cons, List.chain'_cons']
    constructor
    · intro b hb
      exact historyAux_head t p ms _ _ b hb
    · exact historyAux_chain t p ms _ _

theorem historyAux_getLast (t : List Tx) (p : List (String × ℚ)) :
    ∀ (ms : List String), ms ≠ [] → ∀ (pv inv : ℚ),
      ∃ (e : HistoryEntry) (M : String), ms.getLast? = some M ∧
        (historyAux t p ms pv inv).getLast? = some e ∧
        e.invested = (computeTotals (computePnL
          (t.filter (fun tx => decide (strLe (tx.date.take 7) M))) p)).invested ∧
        e.value = (computeTotals (computePnL
          (t.filter (fun tx => decide (strLe (tx.date.take 7) M))) p)).value ∧
        e.realised = (computeTotals (computePnL
          (t.filter (fun tx => decide (strLe (tx.date.take 7) M))) p)).realised ∧
        e.unrealised = (computeTotals (computePnL
          (t.filter (fun tx => decide (strLe (tx.date.take 7) M))) p)).unrealised ∧
        e.pnl = (computeTotals (computePnL
          (t.filter (fun tx => decide (strLe (tx.date.take 7) M))) p)).pnl
  | [], h, _, _ => absurd rfl h
  | [m], _, pv, inv => by
    rw [historyAux_cons]
    exact ⟨_, m, rfl, rfl, rfl, rfl, rfl, rfl, rfl⟩
  | m :: m' :: ms, _, pv, inv => by
    obtain ⟨e, M, hM, he, h1, h2, h3, h4, h5⟩ :=
      historyAux_getLast t p (m' :: ms) (by simp)
        ((computeTotals (computePnL
            (t.filter (fun tx => decide (strLe (tx.date.take 7) m))) p)).value +
          (computeTotals (computePnL
            (t.filter (fun tx => decide (strLe (tx.date.take 7) m))) p)).realised)
        (computeTotals (computePnL
          (t.filter (fun tx => decide (strLe (tx.date.take 7) m))) p)).invested
    refine ⟨e, M, ?_, ?_, h1, h2, h3, h4, h5⟩
    · rw [List.getLast?_cons_cons]
      exact hM
    · rw [historyAux_cons, historyAux_cons, List.getLast?_cons_cons,
        ← historyAux_cons]
      exact he

theorem pairwise_strLe_getLast :
    ∀ (l : List String), l.Pairwise (fun a b => strLe a b) →
      ∀ M, l.getLast? = some M → ∀ x ∈ l, strLe x M
  | [], _, M, h => by simp at h
  | [a], _, M, h => by
    intro x hx
    rw [show ([a] : List String).getLast? = some a from rfl,
      Option.some_inj] at h
    rw [List.mem_singleton.1 hx, ← h]
  | a :: b :: l, hp, M, h => by
    intro x hx
    rw [List.getLast?_cons_cons] at h
    rw [List.pairwise_cons] at hp
    have IH := pairwise_strLe_getLast (b :: l) hp.2 M h
    rcases List.mem_cons.1 hx with rfl | hx2
    · exact le_trans (hp.1 b (List.mem_cons_self _ _)) (IH b (List.mem_cons_self _ _))
    · exact IH x hx2

theorem getLast?_ne_nil : ∀ (l : List String), l ≠ [] → ∃ M, l.getLast? = some M
  | [], h => absurd rfl h
  | [a], _ => ⟨a, rfl⟩
  | a :: b :: l, _ => by
    rw [List.getLast?_cons_cons]
    exact getLast?_ne_nil (b :: l) (by simp)

/-- C8: `computeMonthlyHistory` emits one entry per distinct `YYYY-MM`
month in strictly ascending order (exactly the months present in the
transactions), each entry's `return` field relates to the previous entry
by the period-return formula (0 when the previous portfolio value was not
positive), the first entry's `return` is always 0, and an empty
transaction list yields an empty history. -/
theorem claim8_monthly_history :
    (∀ prices : List (String × ℚ), computeMonthlyHistory [] prices = []) ∧
    (∀ (txs : List Tx) (prices : List (String × ℚ)),
      (computeMonthlyHistory txs prices).map HistoryEntry.month = monthsOf txs) ∧
    (∀ txs : List Tx, (monthsOf txs).Pairwise (fun a b => strLt a b)) ∧
    (∀ (txs : List Tx) (m : String),
      m ∈ monthsOf txs ↔ ∃ tx ∈ txs, tx.date.take 7 = m) ∧
    (∀ (txs : List Tx) (prices : List (String × ℚ)),
      List.Chain' retStep (computeMonthlyHistory txs prices)) ∧
    (∀ (txs : List Tx) (prices : List (String × ℚ)) (e : HistoryEntry),
      (computeMonthlyHistory txs prices).head? = some e → e.ret = 0) := by
  refine ⟨fun prices => rfl,
    fun txs prices => historyAux_map_month txs prices (monthsOf txs) 0 0,
    monthsOf_pairwise_lt, mem_monthsOf,
    fun txs prices => historyAux_chain txs prices (monthsOf txs) 0 0,
    fun txs prices e he => ?_⟩
  have h := historyAux_head txs prices (monthsOf txs) 0 0 e he
  rw [if_neg (lt_irrefl 0)] at h
  rw [h]
  ring

/-- Witness for C8's first-entry clause at a concrete input. -/
theorem claim8_monthly_history_witness :
    ∃ e : HistoryEntry,
      (computeMonthlyHistory [⟨"2024-01-15", "BTC", "BUY", 100, 1⟩] []).head? =
        some e ∧ e.ret = 0 := by
  have hd : ∃ e : HistoryEntry,
      (computeMonthlyHistory [⟨"2024-01-15", "BTC", "BUY", 100, 1⟩] []).head? =
        some e := by
    rw [show computeMonthlyHistory [⟨"2024-01-15", "BTC", "BUY", 100, 1⟩] [] =
      historyAux [⟨"2024-01-15", "BTC", "BUY", 100, 1⟩] []
        (monthsOf [⟨"2024-01-15", "BTC", "BUY", 100, 1⟩]) 0 0 from rfl]
    rw [show monthsOf [⟨"2024-01-15", "BTC", "BUY", 100, 1⟩] = ["2024-01"] from
      by decide]
    rw [historyAux_cons]
    exact ⟨_, rfl⟩
  obtain ⟨e, he⟩ := hd
  exact ⟨e, he, claim8_monthly_history.2.2.2.2.2
    [⟨"2024-01-15", "BTC", "BUY", 100, 1⟩] [] e he⟩

/-- C10: for a non-empty transaction list the last monthly-history entry
carries exactly the full-portfolio totals of
`computeTotals (computePnL transactions prices)`: the cumulative filter of
the latest month retains every transaction. -/
theorem claim10_last_row_totals :
    ∀ (txs : List Tx) (prices : List (String × ℚ)), txs ≠ [] →
      ∃ e : HistoryEntry, (computeMonthlyHistory txs prices).getLast? = some e ∧
        e.invested = (computeTotals (computePnL txs prices)).invested ∧
        e.value = (computeTotals (computePnL txs prices)).value ∧
        e.realised = (computeTotals (computePnL txs prices)).realised ∧
        e.unrealised = (computeTotals (computePnL txs prices)).unrealised ∧
        e.pnl = (computeTotals (computePnL txs prices)).pnl := by
  intro txs prices hne
  have hmonths : monthsOf txs ≠ [] := by
    rcases txs with _ | ⟨tx, rest⟩
    · exact absurd rfl hne
    · exact List.ne_nil_of_mem
        ((mem_monthsOf _ _).2 ⟨tx, List.mem_cons_self _ _, rfl⟩)
  obtain ⟨e, M, hM, he, h1, h2, h3, h4, h5⟩ :=
    historyAux_getLast txs prices (monthsOf txs) hmonths 0 0
  have hall : ∀ tx ∈ txs, strLe (tx.date.take 7) M := fun tx htx =>
    pairwise_strLe_getLast (monthsOf txs) (monthsOf_pairwise_le txs) M hM
      (tx.date.take 7) ((mem_monthsOf _ _).2 ⟨tx, htx, rfl⟩)
  have hfilter : txs.filter (fun tx => decide (strLe (tx.date.take 7) M)) = txs :=
    List.filter_eq_self.2 (fun tx htx => decide_eq_true (hall tx htx))
  rw [hfilter] at h1 h2 h3 h4 h5
  exact ⟨e, he, h1, h2, h3, h4, h5⟩

/-- Witness for C10 at a concrete input. -/
theorem claim10_last_row_totals_witness :
    ∃ e : HistoryEntry,
      (computeMonthlyHistory [⟨"2024-01-15", "BTC", "BUY", 100, 1⟩]
          [("BTC", 120)]).getLast? = some e ∧
        e.invested = (computeTotals (computePnL
          [⟨"2024-01-15", "BTC", "BUY", 100, 1⟩] [("BTC", 120)])).invested ∧
        e.value = (computeTotals (computePnL
          [⟨"2024-01-15", "BTC", "BUY", 100, 1⟩] [("BTC", 120)])).value ∧
        e.realised = (computeTotals (computePnL
          [⟨"2024-01-15", "BTC", "BUY", 100, 1⟩] [("BTC", 120)])).realised ∧
        e.unrealised = (computeTotals (computePnL
          [⟨"2024-01-15", "BTC", "BUY", 100, 1⟩] [("BTC", 120)])).unrealised ∧
        e.pnl = (computeTotals (computePnL
          [⟨"2024-01-15", "BTC", "BUY", 100, 1⟩] [("BTC", 120)])).pnl :=
  claim10_last_row_totals [⟨"2024-01-15", "BTC", "BUY", 100, 1⟩]
    [("BTC", 120)] (by simp)

end WavDca
